import Mathlib

/-!
Verification of `selfdrive/car/docs.py`: footnote indexing, car-info
collection, natural sorting, grouping by manufacturer, template rendering
and the command-line driver, shallowly embedded as Lean definitions with
theorems about the behaviours the design document describes.
-/

set_option autoImplicit false

namespace CarDocs

/-- A footnote enumeration value: identity is the enumeration value (`id`),
and `text` is the associated display text (`fn.value.text` in the source). -/
structure Footnote where
  id : Nat
  text : String
deriving DecidableEq, Repr

/-- The flat list of footnote enumeration values the source iterates over:
`all_footnotes = list(CommonFootnote)` extended by each brand's `Footnote`
list in registry-iteration order. -/
def all_footnotes (common : List Footnote) (brands : List (List Footnote)) :
    List Footnote :=
  common ++ brands.flatten

/-- One step of Python dict construction: inserting key `k` with value `v`
updates the value in place when `k` is already a key (keeping its position),
and appends the pair at the end otherwise. -/
def dictInsert (d : List (Footnote × Nat)) (k : Footnote) (v : Nat) :
    List (Footnote × Nat) :=
  if d.any (fun p => p.1 == k) then
    d.map (fun p => if p.1 == k then (p.1, v) else p)
  else
    d ++ [(k, v)]

/-- Sequential dict construction for the comprehension
`{fn: idx + 1 for idx, fn in enumerate(all_footnotes)}`: `n` is the number
of entries already enumerated, `d` the dict built so far. -/
def dictOfEnum (n : Nat) (d : List (Footnote × Nat)) :
    List Footnote → List (Footnote × Nat)
  | [] => d
  | fn :: fns => dictOfEnum (n + 1) (dictInsert d fn (n + 1)) fns

/-- `get_all_footnotes` from the source: the mapping from every footnote
reachable from the common set and the per-brand lists to its 1-based index,
represented as a Python dict in insertion order. -/
def get_all_footnotes (common : List Footnote) (brands : List (List Footnote)) :
    List (Footnote × Nat) :=
  dictOfEnum 0 [] (all_footnotes common brands)

/-- Python dict lookup on the association-list representation. -/
def dictGet : List (Footnote × Nat) → Footnote → Option Nat
  | [], _ => Option.none
  | p :: rest, k => if p.1 == k then some p.2 else dictGet rest k

/-- The association list pairing each element of a list with its 1-based
position, starting after `n` earlier elements. Reference shape for the dict
built by `get_all_footnotes` when all keys are distinct. -/
def idxMapFrom (n : Nat) : List Footnote → List (Footnote × Nat)
  | [] => []
  | fn :: fns => (fn, n + 1) :: idxMapFrom (n + 1) fns

/-- The ordered footnote display texts used by `generate_cars_md`:
`[fn.value.text for fn in get_all_footnotes()]` (iterating a dict yields its
keys in insertion order). -/
def footnote_texts (common : List Footnote) (brands : List (List Footnote)) :
    List String :=
  (get_all_footnotes common brands).map (fun p => p.1.text)

/-! Natural sorting. The source sorts with `natsorted(all_car_info,
key=lambda car: car.name.lower())` from the external `natsort` library. -/

/-- Modelled from the spec: a chunk of a natural-sort key, produced by the
external `natsort` library — a maximal run of non-digit characters, or a
maximal run of digits read as a number ("numeric substrings compare by
numeric value"). -/
inductive Chunk where
  | str (s : List Char) : Chunk
  | num (n : Nat) : Chunk
deriving DecidableEq, Repr

/-- Modelled from the spec: split a character list into alternating
text/number chunks, carrying the chunk under construction. -/
def natChunksGo : List Char → Option Chunk → List Chunk
  | [], Option.none => []
  | [], some ch => [ch]
  | c :: cs, Option.none =>
    if c.isDigit then natChunksGo cs (some (Chunk.num (c.toNat - 48)))
    else natChunksGo cs (some (Chunk.str [c]))
  | c :: cs, some (Chunk.num n) =>
    if c.isDigit then natChunksGo cs (some (Chunk.num (n * 10 + (c.toNat - 48))))
    else Chunk.num n :: natChunksGo cs (some (Chunk.str [c]))
  | c :: cs, some (Chunk.str s) =>
    if c.isDigit then Chunk.str s :: natChunksGo cs (some (Chunk.num (c.toNat - 48)))
    else natChunksGo cs (some (Chunk.str (s ++ [c])))

/-- Modelled from the spec: the natural-sort key of a string — its chunks,
with an empty text chunk prefixed when the string starts with a digit so
that any two keys alternate text and number chunks at the same positions
(as the `natsort` library does with its padded tuples). -/
def natKey (s : String) : List Chunk :=
  match natChunksGo s.data Option.none with
  | Chunk.num n :: rest => Chunk.str [] :: Chunk.num n :: rest
  | l => l

/-- Character comparison by code point. -/
def charLt (c d : Char) : Bool := c.toNat < d.toNat

/-- Lexicographic comparison of character runs. -/
def charListLt : List Char → List Char → Bool
  | _, [] => false
  | [], _ :: _ => true
  | c :: cs, d :: ds =>
    if charLt c d then true
    else if charLt d c then false
    else charListLt cs ds

/-- Comparison of key chunks: numbers by value, text runs lexicographically;
a number chunk sorts before a text chunk (never reached when both keys are
in the alternating normal form). -/
def chunkLt : Chunk → Chunk → Bool
  | Chunk.num a, Chunk.num b => a < b
  | Chunk.num _, Chunk.str _ => true
  | Chunk.str _, Chunk.num _ => false
  | Chunk.str a, Chunk.str b => charListLt a b

/-- Lexicographic comparison of whole natural-sort keys. -/
def chunkListLt : List Chunk → List Chunk → Bool
  | _, [] => false
  | [], _ :: _ => true
  | a :: as, b :: bs =>
    if chunkLt a b then true
    else if chunkLt b a then false
    else chunkListLt as bs

/-- Modelled from the spec: insert an element into an already-sorted list,
after every element strictly below it — the stable insertion underlying the
external `natsorted`. -/
def insertSortedBy {α : Type} (lt : α → α → Bool) (x : α) : List α → List α
  | [] => [x]
  | y :: ys => if lt y x then y :: insertSortedBy lt x ys else x :: y :: ys

/-- Modelled from the spec: stable comparison sort (the external
`natsorted`, specialised to the comparison it is called with). -/
def stableSortBy {α : Type} (lt : α → α → Bool) : List α → List α
  | [] => []
  | x :: xs => insertSortedBy lt x (stableSortBy lt xs)

/-! The car-info collector. -/

/-- The slice of the fetched parameters (`CP`, a `cereal` `CarParams`
message owned by the external interface) that this script reads: the
`dashcamOnly` capability flag. The rest of the message is only handed on
to the externally-defined record initialisers. -/
structure CarParams where
  dashcamOnly : Bool
deriving DecidableEq, Repr

/-- One firmware entry as constructed by `car.CarParams.CarFw(ecu="unknown")`. -/
structure CarFw where
  ecu : String
deriving DecidableEq, Repr

/-- Modelled from the spec: the external helper `gen_empty_fingerprint`
produces an empty/placeholder vehicle fingerprint (no observed messages). -/
def gen_empty_fingerprint : List (Nat × List (Nat × Nat)) := []

/-- The keyword arguments of an `interfaces[model][0].get_params(...)` call. -/
structure GetParamsArgs where
  fingerprint : List (Nat × List (Nat × Nat))
  car_fw : List CarFw
  experimental_long : Bool
  docs : Bool
deriving DecidableEq, Repr

/-- The argument structure built at the `get_params` call site of
`get_all_car_info`: empty fingerprint, one firmware entry with the
placeholder ecu `"unknown"`, experimental longitudinal control forced on,
and the docs flag set. -/
def docs_get_params_args : GetParamsArgs :=
  { fingerprint := gen_empty_fingerprint
    car_fw := [{ ecu := "unknown" }]
    experimental_long := true
    docs := true }

/-- A documentation record for one vehicle (`CarInfo` in
`docs_definitions.py`, external): a display name, a manufacturer, and the
`row` display field whose presence (`hasattr(_car_info, "row")`) marks the
record as display-initialised. -/
structure CarInfo where
  name : String
  make : String
  row : Option String
deriving DecidableEq, Repr

/-- The value the registry associates to a model under `"CAR_INFO"`: Python
`None`, a single record, or a list of records. -/
inductive CarInfoEntry where
  | noInfo : CarInfoEntry
  | single (c : CarInfo) : CarInfoEntry
  | many (cs : List CarInfo) : CarInfoEntry
deriving DecidableEq, Repr

/-- The `car_info is None` test. -/
def CarInfoEntry.isNone : CarInfoEntry → Bool
  | CarInfoEntry.noInfo => true
  | _ => false

/-- The normalisation `if not isinstance(car_info, list): car_info =
(car_info,)`: a single record becomes a one-element sequence, a list is
used as-is. (`None` never reaches this step: the guard above skips it.) -/
def CarInfoEntry.toList : CarInfoEntry → List CarInfo
  | CarInfoEntry.noInfo => []
  | CarInfoEntry.single c => [c]
  | CarInfoEntry.many cs => cs

/-- The external collaborators of the script, bundled: the footnote
registry (`CommonFootnote` and per-brand `Footnote` lists), the car-info
registry in iteration order, the per-model `get_params` interface, the
externally-defined record initialisers `init_make` and `init` from
`docs_definitions.py`, the filesystem read, and the template engine. -/
structure Ctx where
  common : List Footnote
  brandFootnotes : List (List Footnote)
  carRegistry : List (String × CarInfoEntry)
  getParams : String → GetParamsArgs → CarParams
  initMake : CarParams → CarInfo → CarInfo
  initFull : CarParams → List (Footnote × Nat) → CarInfo → CarInfo
  readFile : String → String
  render : String → List CarInfo → List String → String

/-- The per-record step of the collector loop: a record lacking the `row`
field is initialised by `init_make(CP)` then `init(CP, footnotes)`, in that
order; a record that already has it is appended untouched. -/
def initRecord (ctx : Ctx) (CP : CarParams) (footnotes : List (Footnote × Nat))
    (c : CarInfo) : CarInfo :=
  if c.row.isSome then c else ctx.initFull CP footnotes (ctx.initMake CP c)

/-- The records one `(model, car_info)` registry pair contributes to the
flat list: fetch `CP` with the fixed documentation arguments, skip the pair
when the dashcam flag differs from the filter or the registry returned
`None`, otherwise normalise and initialise each record. -/
def modelContribution (ctx : Ctx) (footnotes : List (Footnote × Nat))
    (dashcam_only : Bool) (model : String) (entry : CarInfoEntry) :
    List CarInfo :=
  let CP := ctx.getParams model docs_get_params_args
  if (CP.dashcamOnly != dashcam_only) || entry.isNone then []
  else entry.toList.map (initRecord ctx CP footnotes)

/-- The flat `all_car_info` list accumulated by `get_all_car_info` before
sorting. -/
def collect_car_info (ctx : Ctx) (dashcam_only : Bool) : List CarInfo :=
  let footnotes := get_all_footnotes ctx.common ctx.brandFootnotes
  (ctx.carRegistry.map
    (fun p => modelContribution ctx footnotes dashcam_only p.1 p.2)).flatten

/-- Modelled from the spec: Python's `str.lower`, character by character
(the script's sort key is `car.name.lower()`). -/
def lowerString (s : String) : String := String.mk (s.data.map Char.toLower)

/-- The natural-sort key of a record: the chunked, lowercased display name. -/
def natCarKey (c : CarInfo) : List Chunk := natKey (lowerString c.name)

/-- The comparison `natsorted` sorts by: natural order on lowercased names. -/
def natCarLt (a b : CarInfo) : Bool := chunkListLt (natCarKey a) (natCarKey b)

/-- `get_all_car_info` from the source: collect, then
`natsorted(all_car_info, key=lambda car: car.name.lower())`. -/
def get_all_car_info (ctx : Ctx) (dashcam_only : Bool) : List CarInfo :=
  stableSortBy natCarLt (collect_car_info ctx dashcam_only)

/-! The grouper. -/

/-- One step of `defaultdict(list)` accumulation: append `c` to the bucket
of key `k`, keeping the bucket's position; a new key's bucket is appended
at the end (dict insertion order). -/
def groupInsert (acc : List (String × List CarInfo)) (k : String)
    (c : CarInfo) : List (String × List CarInfo) :=
  match acc with
  | [] => [(k, [c])]
  | (k', cs) :: rest =>
    if k' == k then (k', cs ++ [c]) :: rest else (k', cs) :: groupInsert rest k c

/-- `group_by_make` from the source: one pass over the records, appending
each to the bucket of its `make`. -/
def group_by_make (all_car_info : List CarInfo) :
    List (String × List CarInfo) :=
  all_car_info.foldl (fun acc c => groupInsert acc c.make c) []

/-- Bucket lookup in the grouped mapping (the empty list when absent). -/
def lookupMake : List (String × List CarInfo) → String → List CarInfo
  | [], _ => []
  | (k, cs) :: rest, m => if k == m then cs else lookupMake rest m

/-- The first-occurrence deduplication of a key sequence: the iteration
order of the keys a Python dict built by repeated insertion ends up with. -/
def dedupFirst (l : List String) : List String :=
  l.foldl (fun acc k => if acc.contains k then acc else acc ++ [k]) []

/-! The renderer and the command-line driver. -/

/-- `generate_cars_md` from the source: read the template, build the
ordered footnote texts, and render. The template engine (`jinja2`) is the
external `ctx.render`. -/
def generate_cars_md (ctx : Ctx) (all_car_info : List CarInfo)
    (template_fn : String) : String :=
  let template := ctx.readFile template_fn
  ctx.render template all_car_info (footnote_texts ctx.common ctx.brandFootnotes)

/-- Observable side effects of the driver, in program order. -/
inductive Event where
  | openOut (path : String) : Event
  | readTemplate (path : String) : Event
  | writeOut (path : String) (content : String) : Event
  | printed (msg : String) : Event
deriving DecidableEq, Repr

/-- The side effects of one loop body of the driver: `open(out, "w")`
truncates the output file, the template is read inside `generate_cars_md`,
the rendered text is written, and the confirmation line is printed. The
dashcam filter for the pair is `any(t == template for t in
args.dashcam_only)`. -/
def pairEvents (ctx : Ctx) (dashcamList : List String) (out template : String) :
    List Event :=
  let dashcam_only := dashcamList.contains template
  let content := generate_cars_md ctx (get_all_car_info ctx dashcam_only) template
  [Event.openOut out, Event.readTemplate template,
    Event.writeOut out content,
    Event.printed ("Generated and written to " ++ out)]

/-- The driver loop `for out, template in zip(args.out, args.template,
strict=True)`: pairs of the common prefix are processed in order; when one
list runs out before the other the strict zip raises `ValueError` (flag
`false`), processing nothing further; equal exhaustion completes the run
(flag `true`). -/
def run_main (ctx : Ctx) (dashcamList : List String) :
    List String → List String → List Event × Bool
  | [], [] => ([], true)
  | [], _ :: _ => ([], false)
  | _ :: _, [] => ([], false)
  | o :: os, t :: ts =>
    let rest := run_main ctx dashcamList os ts
    (pairEvents ctx dashcamList o t ++ rest.1, rest.2)

/-- The concatenation of all bucket contents of a grouped mapping. -/
def valsFlat (g : List (String × List CarInfo)) : List CarInfo :=
  (g.map Prod.snd).flatten

/-! Concrete instances used to evaluate the development on closed inputs. -/

/-- An already-initialised record (its `row` display field is present). -/
def exRec (nm mk : String) : CarInfo := { name := nm, make := mk, row := some "row" }

/-- A concrete context: three single-record models, no footnotes, a
`get_params` that reports no model as dashcam-only, and a trivial
filesystem and template engine. -/
def exCtx3 : Ctx :=
  { common := []
    brandFootnotes := []
    carRegistry := [("M10", CarInfoEntry.single (exRec "Model 10" "X")),
                    ("M3", CarInfoEntry.single (exRec "Model 3" "X")),
                    ("M2", CarInfoEntry.single (exRec "model 2" "X"))]
    getParams := fun _ _ => { dashcamOnly := false }
    initMake := fun _ c => c
    initFull := fun _ _ c => c
    readFile := fun _ => ""
    render := fun _ _ _ => "" }

/-- A concrete context whose `init` collaborator always sets the `row`
display field, as `CarInfo.init` in `docs_definitions.py` does. -/
def exInitCtx : Ctx :=
  { exCtx3 with initFull := fun _ _ c => { c with row := some "row" } }

/-- A concrete common-footnote set. -/
def exCommon : List Footnote := [{ id := 1, text := "a" }]

/-- A concrete family of per-brand footnote lists. -/
def exBrands : List (List Footnote) := [[{ id := 2, text := "b" }]]

/-! Lemmas about the dict built by `get_all_footnotes`. -/

theorem dictInsert_of_fresh (d : List (Footnote × Nat)) (k : Footnote) (v : Nat)
    (h : d.any (fun p => p.1 == k) = false) :
    dictInsert d k v = d ++ [(k, v)] := by
  simp [dictInsert, h]

theorem any_key_eq_false_iff (d : List (Footnote × Nat)) (k : Footnote) :
    d.any (fun p => p.1 == k) = false ↔ k ∉ d.map Prod.fst := by
  rw [List.any_eq_false]
  constructor
  · intro h hk
    rcases List.mem_map.mp hk with ⟨p, hp, hpk⟩
    have hne : ¬ p.1 = k := by simpa using h p hp
    exact hne hpk
  · intro h p hp
    simp only [beq_iff_eq]
    intro hk
    exact h (List.mem_map.mpr ⟨p, hp, hk⟩)

theorem dictOfEnum_eq_idxMapFrom (l : List Footnote) :
    ∀ (n : Nat) (d : List (Footnote × Nat)),
      l.Nodup → (∀ fn ∈ l, fn ∉ d.map Prod.fst) →
      dictOfEnum n d l = d ++ idxMapFrom n l := by
  induction l with
  | nil => intro n d _ _; simp [dictOfEnum, idxMapFrom]
  | cons fn fns ih =>
    intro n d hnd hfresh
    have hfn : fn ∉ d.map Prod.fst := hfresh fn (List.mem_cons_self _ _)
    have hins : dictInsert d fn (n + 1) = d ++ [(fn, n + 1)] :=
      dictInsert_of_fresh d fn (n + 1) ((any_key_eq_false_iff d fn).mpr hfn)
    have hnd' : fns.Nodup := (List.nodup_cons.mp hnd).2
    have hfn' : fn ∉ fns := (List.nodup_cons.mp hnd).1
    have hfresh' : ∀ g ∈ fns, g ∉ (d ++ [(fn, n + 1)]).map Prod.fst := by
      intro g hg
      simp only [List.map_append, List.mem_append, List.map_cons, List.map_nil]
      intro hcase
      rcases hcase with hin | hin
      · exact hfresh g (List.mem_cons_of_mem _ hg) hin
      · simp at hin
        exact hfn' (hin ▸ hg)
    calc dictOfEnum n d (fn :: fns)
        = dictOfEnum (n + 1) (dictInsert d fn (n + 1)) fns := rfl
      _ = dictOfEnum (n + 1) (d ++ [(fn, n + 1)]) fns := by rw [hins]
      _ = (d ++ [(fn, n + 1)]) ++ idxMapFrom (n + 1) fns := ih (n + 1) _ hnd' hfresh'
      _ = d ++ idxMapFrom n (fn :: fns) := by simp [idxMapFrom]

theorem get_all_footnotes_eq_idxMap (common : List Footnote)
    (brands : List (List Footnote)) (h : (all_footnotes common brands).Nodup) :
    get_all_footnotes common brands = idxMapFrom 0 (all_footnotes common brands) := by
  have := dictOfEnum_eq_idxMapFrom (all_footnotes common brands) 0 [] h (by simp)
  simpa [get_all_footnotes] using this

theorem idxMapFrom_map_fst (l : List Footnote) :
    ∀ n, (idxMapFrom n l).map Prod.fst = l := by
  induction l with
  | nil => intro n; rfl
  | cons fn fns ih => intro n; simp [idxMapFrom, ih]

theorem idxMapFrom_map_snd (l : List Footnote) :
    ∀ n, (idxMapFrom n l).map Prod.snd = List.range' (n + 1) l.length := by
  induction l with
  | nil => intro n; rfl
  | cons fn fns ih =>
    intro n
    simp only [idxMapFrom, List.map_cons, ih (n + 1), List.length_cons]
    rw [List.range'_succ]

theorem idxMapFrom_append (a b : List Footnote) :
    ∀ n, idxMapFrom n (a ++ b) = idxMapFrom n a ++ idxMapFrom (n + a.length) b := by
  induction a with
  | nil => intro n; simp [idxMapFrom]
  | cons fn fns ih =>
    intro n
    simp [idxMapFrom, ih (n + 1)]
    have : n + 1 + fns.length = n + (fns.length + 1) := by omega
    rw [this]

theorem dictGet_idxMapFrom_bounds (l : List Footnote) :
    ∀ n (k : Footnote) (v : Nat), dictGet (idxMapFrom n l) k = some v →
      n + 1 ≤ v ∧ v ≤ n + l.length := by
  induction l with
  | nil => intro n k v h; simp [idxMapFrom, dictGet] at h
  | cons fn fns ih =>
    intro n k v h
    simp only [idxMapFrom, dictGet] at h
    simp only [List.length_cons]
    by_cases hk : (fn == k) = true
    · rw [if_pos hk] at h
      have hv : n + 1 = v := Option.some.inj h
      omega
    · rw [if_neg hk] at h
      have := ih (n + 1) k v h
      omega

theorem dictGet_idxMapFrom_of_mem (l : List Footnote) :
    ∀ n (k : Footnote), k ∈ l → ∃ v, dictGet (idxMapFrom n l) k = some v := by
  induction l with
  | nil => intro n k h; simp at h
  | cons fn fns ih =>
    intro n k h
    simp only [idxMapFrom, dictGet]
    by_cases hk : (fn == k) = true
    · exact ⟨n + 1, by rw [if_pos hk]⟩
    · have hmem : k ∈ fns := by
        rcases List.mem_cons.mp h with heq | hmem
        · exact absurd heq.symm (by simpa using hk)
        · exact hmem
      rcases ih (n + 1) k hmem with ⟨v, hv⟩
      exact ⟨v, by rw [if_neg hk]; exact hv⟩

theorem dictGet_append_left (a b : List (Footnote × Nat)) (k : Footnote) (v : Nat)
    (h : dictGet a k = some v) : dictGet (a ++ b) k = some v := by
  induction a with
  | nil => simp [dictGet] at h
  | cons p rest ih =>
    simp only [dictGet, List.cons_append] at h ⊢
    by_cases hk : (p.1 == k) = true
    · rw [if_pos hk] at h ⊢
      exact h
    · rw [if_neg hk] at h ⊢
      exact ih h

theorem dictGet_append_right (a b : List (Footnote × Nat)) (k : Footnote)
    (h : k ∉ a.map Prod.fst) : dictGet (a ++ b) k = dictGet b k := by
  induction a with
  | nil => rfl
  | cons p rest ih =>
    simp only [List.map_cons, List.mem_cons] at h
    push_neg at h
    simp only [dictGet, List.cons_append]
    rw [if_neg (by simpa using Ne.symm h.1)]
    exact ih h.2

/-! Order-theoretic facts about the chunk comparisons. -/

theorem charEq_of_toNat_eq {c d : Char} (h : c.toNat = d.toNat) : c = d :=
  Char.eq_of_val_eq (UInt32.eq_of_val_eq (Fin.ext h))

theorem charLt_irrefl (c : Char) : charLt c c = false := by
  simp [charLt]

theorem charLt_asymm {c d : Char} (h : charLt c d = true) : charLt d c = false := by
  simp [charLt] at h ⊢
  omega

theorem charLt_trans {a b c : Char} (h1 : charLt a b = true)
    (h2 : charLt b c = true) : charLt a c = true := by
  simp [charLt] at h1 h2 ⊢
  omega

theorem charEq_of_not_lt {c d : Char} (h1 : charLt c d = false)
    (h2 : charLt d c = false) : c = d := by
  simp [charLt] at h1 h2
  exact charEq_of_toNat_eq (by omega)

theorem charListLt_irrefl (l : List Char) : charListLt l l = false := by
  induction l with
  | nil => rfl
  | cons c cs ih => simp [charListLt, charLt_irrefl, ih]

theorem charListEq_of_not_lt : ∀ {a b : List Char}, charListLt a b = false →
    charListLt b a = false → a = b
  | [], [], _, _ => rfl
  | [], _ :: _, h1, _ => by simp [charListLt] at h1
  | _ :: _, [], _, h2 => by simp [charListLt] at h2
  | c :: cs, d :: ds, h1, h2 => by
    simp only [charListLt] at h1 h2
    by_cases hcd : charLt c d = true
    · rw [if_pos hcd] at h1; exact absurd h1 (by simp)
    · rw [if_neg hcd] at h1
      by_cases hdc : charLt d c = true
      · rw [if_pos hdc] at h2; exact absurd h2 (by simp)
      · rw [if_neg hdc] at h2
        rw [if_neg hdc] at h1
        rw [if_neg hcd] at h2
        have hc : c = d :=
          charEq_of_not_lt (by simpa using hcd) (by simpa using hdc)
        have := charListEq_of_not_lt h1 h2
        rw [hc, this]

theorem charListLt_cons_iff {c d : Char} {cs ds : List Char} :
    charListLt (c :: cs) (d :: ds) = true ↔
      charLt c d = true ∨ (c = d ∧ charListLt cs ds = true) := by
  simp only [charListLt]
  by_cases hcd : charLt c d = true
  · simp [hcd]
  · rw [if_neg hcd]
    by_cases hdc : charLt d c = true
    · rw [if_pos hdc]
      simp only [Bool.false_eq_true, false_iff]
      push_neg
      refine ⟨by simpa using hcd, ?_⟩
      intro he _
      exact absurd (he ▸ hdc) (by simp [charLt_irrefl])
    · rw [if_neg hdc]
      have hc : c = d := charEq_of_not_lt (by simpa using hcd) (by simpa using hdc)
      subst hc
      simp [charLt_irrefl]

theorem charListLt_trans : ∀ {a b c : List Char}, charListLt a b = true →
    charListLt b c = true → charListLt a c = true
  | _, [], _, h1, _ => by simp [charListLt] at h1
  | _, _ :: _, [], _, h2 => by simp [charListLt] at h2
  | [], _ :: _, _ :: _, _, _ => by simp [charListLt]
  | a :: as, b :: bs, c :: cs, h1, h2 => by
    rcases charListLt_cons_iff.mp h1 with hab | ⟨hab, htl1⟩ <;>
      rcases charListLt_cons_iff.mp h2 with hbc | ⟨hbc, htl2⟩
    · exact charListLt_cons_iff.mpr (Or.inl (charLt_trans hab hbc))
    · exact charListLt_cons_iff.mpr (Or.inl (hbc ▸ hab))
    · exact charListLt_cons_iff.mpr (Or.inl (hab ▸ hbc))
    · exact charListLt_cons_iff.mpr
        (Or.inr ⟨hab.trans hbc, charListLt_trans htl1 htl2⟩)

theorem chunkLt_irrefl (a : Chunk) : chunkLt a a = false := by
  cases a with
  | str s => simp [chunkLt, charListLt_irrefl]
  | num n => simp [chunkLt]

theorem chunkEq_of_not_lt : ∀ {a b : Chunk}, chunkLt a b = false →
    chunkLt b a = false → a = b
  | Chunk.num _, Chunk.str _, h1, _ => by simp [chunkLt] at h1
  | Chunk.str _, Chunk.num _, _, h2 => by simp [chunkLt] at h2
  | Chunk.num a, Chunk.num b, h1, h2 => by
    simp [chunkLt] at h1 h2
    have : a = b := by omega
    rw [this]
  | Chunk.str a, Chunk.str b, h1, h2 => by
    simp only [chunkLt] at h1 h2
    rw [charListEq_of_not_lt h1 h2]

theorem chunkLt_trans : ∀ {a b c : Chunk}, chunkLt a b = true →
    chunkLt b c = true → chunkLt a c = true
  | Chunk.num _, Chunk.num _, Chunk.num _, h1, h2 => by
    simp [chunkLt] at h1 h2 ⊢
    omega
  | Chunk.num _, _, Chunk.str _, _, _ => by simp [chunkLt]
  | Chunk.num _, Chunk.str _, Chunk.num _, _, h2 => by simp [chunkLt] at h2
  | Chunk.str _, Chunk.num _, _, h1, _ => by simp [chunkLt] at h1
  | Chunk.str _, Chunk.str _, Chunk.num _, _, h2 => by simp [chunkLt] at h2
  | Chunk.str a, Chunk.str b, Chunk.str c, h1, h2 => by
    simp only [chunkLt] at h1 h2 ⊢
    exact charListLt_trans h1 h2

theorem chunkListLt_irrefl (l : List Chunk) : chunkListLt l l = false := by
  induction l with
  | nil => rfl
  | cons a as ih => simp [chunkListLt, chunkLt_irrefl, ih]

theorem chunkListLt_cons_iff {a b : Chunk} {as bs : List Chunk} :
    chunkListLt (a :: as) (b :: bs) = true ↔
      chunkLt a b = true ∨ (a = b ∧ chunkListLt as bs = true) := by
  simp only [chunkListLt]
  by_cases hab : chunkLt a b = true
  · simp [hab]
  · rw [if_neg hab]
    by_cases hba : chunkLt b a = true
    · rw [if_pos hba]
      simp only [Bool.false_eq_true, false_iff]
      push_neg
      refine ⟨by simpa using hab, ?_⟩
      intro he _
      exact absurd (he ▸ hba) (by simp [chunkLt_irrefl])
    · rw [if_neg hba]
      have hc : a = b :=
        chunkEq_of_not_lt (by simpa using hab) (by simpa using hba)
      subst hc
      simp [chunkLt_irrefl]

theorem chunkListEq_of_not_lt : ∀ {a b : List Chunk}, chunkListLt a b = false →
    chunkListLt b a = false → a = b
  | [], [], _, _ => rfl
  | [], _ :: _, h1, _ => by simp [chunkListLt] at h1
  | _ :: _, [], _, h2 => by simp [chunkListLt] at h2
  | a :: as, b :: bs, h1, h2 => by
    simp only [chunkListLt] at h1 h2
    by_cases hab : chunkLt a b = true
    · rw [if_pos hab] at h1; exact absurd h1 (by simp)
    · rw [if_neg hab] at h1
      by_cases hba : chunkLt b a = true
      · rw [if_pos hba] at h2; exact absurd h2 (by simp)
      · rw [if_neg hba] at h2
        rw [if_neg hba] at h1
        rw [if_neg hab] at h2
        have hc : a = b :=
          chunkEq_of_not_lt (by simpa using hab) (by simpa using hba)
        have := chunkListEq_of_not_lt h1 h2
        rw [hc, this]

theorem chunkListLt_trans : ∀ {a b c : List Chunk}, chunkListLt a b = true →
    chunkListLt b c = true → chunkListLt a c = true
  | _, [], _, h1, _ => by simp [chunkListLt] at h1
  | _, _ :: _, [], _, h2 => by simp [chunkListLt] at h2
  | [], _ :: _, _ :: _, _, _ => by simp [chunkListLt]
  | a :: as, b :: bs, c :: cs, h1, h2 => by
    rcases chunkListLt_cons_iff.mp h1 with hab | ⟨hab, htl1⟩ <;>
      rcases chunkListLt_cons_iff.mp h2 with hbc | ⟨hbc, htl2⟩
    · exact chunkListLt_cons_iff.mpr (Or.inl (chunkLt_trans hab hbc))
    · exact chunkListLt_cons_iff.mpr (Or.inl (hbc ▸ hab))
    · exact chunkListLt_cons_iff.mpr (Or.inl (hab ▸ hbc))
    · exact chunkListLt_cons_iff.mpr
        (Or.inr ⟨hab.trans hbc, chunkListLt_trans htl1 htl2⟩)

theorem chunkListLt_asymm {a b : List Chunk} (h : chunkListLt a b = true) :
    chunkListLt b a = false := by
  by_contra hc
  have hba : chunkListLt b a = true := by
    cases hx : chunkListLt b a
    · exact absurd hx hc
    · rfl
  have := chunkListLt_trans h hba
  rw [chunkListLt_irrefl] at this
  exact absurd this (by simp)

theorem chunkListLt_neg_trans {a b c : List Chunk}
    (h1 : chunkListLt a b = false) (h2 : chunkListLt b c = false) :
    chunkListLt a c = false := by
  by_contra hc
  have hac : chunkListLt a c = true := by
    cases hx : chunkListLt a c
    · exact absurd hx hc
    · rfl
  by_cases hba : chunkListLt b a = true
  · have := chunkListLt_trans hba hac
    rw [this] at h2
    exact absurd h2 (by simp)
  · have heq : b = a := chunkListEq_of_not_lt (by simpa using hba) h1
    rw [heq] at h2
    rw [h2] at hac
    exact absurd hac (by simp)

/-! Generic facts about the stable insertion sort. -/

section StableSort

variable {α : Type} (lt : α → α → Bool)

theorem insertSortedBy_perm (x : α) (l : List α) :
    (insertSortedBy lt x l).Perm (x :: l) := by
  induction l with
  | nil => exact List.Perm.refl _
  | cons y ys ih =>
    simp only [insertSortedBy]
    by_cases h : lt y x = true
    · rw [if_pos h]
      exact ((ih.cons y).trans (List.Perm.swap x y ys))
    · rw [if_neg h]

theorem stableSortBy_perm (l : List α) : (stableSortBy lt l).Perm l := by
  induction l with
  | nil => exact List.Perm.refl _
  | cons x xs ih =>
    exact (insertSortedBy_perm lt x (stableSortBy lt xs)).trans (ih.cons x)

theorem mem_insertSortedBy {x z : α} {l : List α}
    (h : z ∈ insertSortedBy lt x l) : z = x ∨ z ∈ l :=
  (List.Perm.mem_iff (insertSortedBy_perm lt x l)).mp h |> fun hm =>
    List.mem_cons.mp hm

theorem insertSortedBy_sorted
    (hasym : ∀ a b, lt a b = true → lt b a = false)
    (hneg : ∀ a b c, lt a b = false → lt b c = false → lt a c = false)
    (x : α) {l : List α} (hl : l.Pairwise (fun a b => lt b a = false)) :
    (insertSortedBy lt x l).Pairwise (fun a b => lt b a = false) := by
  induction l with
  | nil => simp [insertSortedBy]
  | cons y ys ih =>
    rcases List.pairwise_cons.mp hl with ⟨hy, hys⟩
    simp only [insertSortedBy]
    by_cases h : lt y x = true
    · rw [if_pos h]
      refine List.pairwise_cons.mpr ⟨?_, ih hys⟩
      intro z hz
      rcases mem_insertSortedBy lt hz with hzx | hzy
      · rw [hzx]; exact hasym y x h
      · exact hy z hzy
    · rw [if_neg h]
      refine List.pairwise_cons.mpr ⟨?_, hl⟩
      intro z hz
      rcases List.mem_cons.mp hz with hzy | hzys
      · rw [hzy]; simpa using h
      · exact hneg z y x (hy z hzys) (by simpa using h)

theorem stableSortBy_sorted
    (hasym : ∀ a b, lt a b = true → lt b a = false)
    (hneg : ∀ a b c, lt a b = false → lt b c = false → lt a c = false)
    (l : List α) :
    (stableSortBy lt l).Pairwise (fun a b => lt b a = false) := by
  induction l with
  | nil => simp [stableSortBy]
  | cons x xs ih =>
    exact insertSortedBy_sorted lt hasym hneg x ih

theorem insertSortedBy_filter (p : α → Bool) (x : α) (l : List α)
    (h : p x = true → ∀ y ∈ l, lt y x = true → p y = false) :
    (insertSortedBy lt x l).filter p =
      if p x then x :: l.filter p else l.filter p := by
  induction l with
  | nil => cases hq : p x <;> simp [insertSortedBy, List.filter, hq]
  | cons y ys ih =>
    simp only [insertSortedBy]
    by_cases hlt : lt y x = true
    · rw [if_pos hlt]
      have ih' := ih (fun hpx z hz => h hpx z (List.mem_cons_of_mem _ hz))
      rw [List.filter_cons, List.filter_cons, ih']
      cases hpx : p x with
      | true =>
        have hpy : p y = false := h hpx y (List.mem_cons_self _ _) hlt
        simp [hpx, hpy]
      | false => simp [hpx]
    · rw [if_neg hlt]
      cases hpx : p x <;> simp [List.filter_cons, hpx]

theorem stableSortBy_filter (p : α → Bool) (l : List α)
    (hp : ∀ x y, p x = true → lt y x = true → p y = false) :
    (stableSortBy lt l).filter p = l.filter p := by
  induction l with
  | nil => rfl
  | cons x xs ih =>
    have h := insertSortedBy_filter lt p x (stableSortBy lt xs)
      (fun hpx y _ hlt => hp x y hpx hlt)
    rw [stableSortBy, h, ih]
    cases hpx : p x <;> simp [List.filter_cons, hpx]

end StableSort

/-! Lemmas about the grouper. -/

theorem lookupMake_groupInsert (acc : List (String × List CarInfo))
    (k : String) (c : CarInfo) (m : String) :
    lookupMake (groupInsert acc k c) m =
      lookupMake acc m ++ (if k == m then [c] else []) := by
  induction acc with
  | nil => simp [groupInsert, lookupMake]
  | cons p rest ih =>
    obtain ⟨k', cs⟩ := p
    simp only [groupInsert]
    by_cases hkk : (k' == k) = true
    · rw [if_pos hkk]
      have hkeq : k' = k := by simpa using hkk
      subst hkeq
      by_cases hm : (k' == m) = true
      · simp only [lookupMake, if_pos hm]
      · simp only [lookupMake, if_neg hm]
        simp
    · rw [if_neg hkk]
      have hne : k' ≠ k := by simpa using hkk
      by_cases hm : (k' == m) = true
      · have hmeq : k' = m := by simpa using hm
        have hkm : (k == m) = false := by
          simp only [beq_eq_false_iff_ne, ne_eq]
          intro h
          exact hne (hmeq.trans h.symm)
        simp only [lookupMake, if_pos hm, hkm]
        simp
      · simp only [lookupMake, if_neg hm]
        exact ih

theorem lookupMake_foldl (l : List CarInfo) :
    ∀ (acc : List (String × List CarInfo)) (m : String),
      lookupMake (l.foldl (fun acc c => groupInsert acc c.make c) acc) m =
        lookupMake acc m ++ l.filter (fun c => c.make == m) := by
  induction l with
  | nil => intro acc m; simp [List.filter]
  | cons c cs ih =>
    intro acc m
    rw [List.foldl_cons, ih, lookupMake_groupInsert, List.filter_cons]
    by_cases hm : (c.make == m) = true
    · rw [if_pos hm, if_pos hm]
      simp
    · rw [if_neg hm, if_neg hm]
      simp

theorem lookupMake_group_by_make (l : List CarInfo) (m : String) :
    lookupMake (group_by_make l) m = l.filter (fun c => c.make == m) := by
  have := lookupMake_foldl l [] m
  simpa [group_by_make, lookupMake] using this

theorem keys_groupInsert (acc : List (String × List CarInfo)) (k : String)
    (c : CarInfo) :
    (groupInsert acc k c).map Prod.fst =
      if (acc.map Prod.fst).contains k then acc.map Prod.fst
      else acc.map Prod.fst ++ [k] := by
  induction acc with
  | nil => simp [groupInsert]
  | cons p rest ih =>
    obtain ⟨k', cs⟩ := p
    simp only [groupInsert]
    by_cases hkk : (k' == k) = true
    · rw [if_pos hkk]
      have hkeq : k' = k := by simpa using hkk
      subst hkeq
      simp [List.contains_cons]
    · rw [if_neg hkk]
      have hne : k' ≠ k := by simpa using hkk
      simp only [List.map_cons, List.contains_cons]
      have hkk' : (k == k') = false := by
        simp only [beq_eq_false_iff_ne, ne_eq]
        exact fun h => hne h.symm
      rw [hkk']
      simp only [Bool.false_or]
      rw [ih]
      by_cases hc : ((rest.map Prod.fst).contains k) = true
      · rw [if_pos hc, if_pos hc]
      · rw [if_neg hc, if_neg hc]
        simp

theorem keys_foldl (l : List CarInfo) :
    ∀ (acc : List (String × List CarInfo)),
      ((l.foldl (fun acc c => groupInsert acc c.make c) acc)).map Prod.fst =
        l.foldl (fun ks c => if ks.contains c.make then ks else ks ++ [c.make])
          (acc.map Prod.fst) := by
  induction l with
  | nil => intro acc; rfl
  | cons c cs ih =>
    intro acc
    rw [List.foldl_cons, ih, List.foldl_cons, keys_groupInsert]

theorem keys_group_by_make (l : List CarInfo) :
    (group_by_make l).map Prod.fst = dedupFirst (l.map (fun c => c.make)) := by
  rw [group_by_make, keys_foldl, dedupFirst, List.foldl_map]
  rfl

theorem mem_dedupFirst_foldl (l : List String) :
    ∀ (acc : List String) (x : String),
      (x ∈ l.foldl (fun acc k => if acc.contains k then acc else acc ++ [k]) acc) ↔
        x ∈ acc ∨ x ∈ l := by
  induction l with
  | nil => intro acc x; simp
  | cons k ks ih =>
    intro acc x
    rw [List.foldl_cons, ih]
    by_cases hc : (acc.contains k) = true
    · rw [if_pos hc]
      have hk : k ∈ acc := by simpa [List.elem_iff] using hc
      constructor
      · rintro (h | h)
        · exact Or.inl h
        · exact Or.inr (List.mem_cons_of_mem _ h)
      · rintro (h | h)
        · exact Or.inl h
        · rcases List.mem_cons.mp h with rfl | h
          · exact Or.inl hk
          · exact Or.inr h
    · rw [if_neg hc]
      constructor
      · rintro (h | h)
        · rcases List.mem_append.mp h with h | h
          · exact Or.inl h
          · simp at h
            exact Or.inr (by simp [h])
        · exact Or.inr (List.mem_cons_of_mem _ h)
      · rintro (h | h)
        · exact Or.inl (List.mem_append.mpr (Or.inl h))
        · rcases List.mem_cons.mp h with rfl | h
          · exact Or.inl (by simp)
          · exact Or.inr h

theorem mem_dedupFirst (l : List String) (x : String) :
    x ∈ dedupFirst l ↔ x ∈ l := by
  rw [dedupFirst, mem_dedupFirst_foldl]
  simp

theorem valsFlat_groupInsert (acc : List (String × List CarInfo)) (k : String)
    (c : CarInfo) :
    (valsFlat (groupInsert acc k c)).Perm (valsFlat acc ++ [c]) := by
  induction acc with
  | nil => simp [groupInsert, valsFlat]
  | cons p rest ih =>
    obtain ⟨k', cs⟩ := p
    simp only [groupInsert]
    by_cases hkk : (k' == k) = true
    · rw [if_pos hkk]
      simp only [valsFlat, List.map_cons, List.flatten_cons]
      rw [List.append_assoc, List.append_assoc]
      exact List.Perm.append_left cs (List.perm_append_comm)
    · rw [if_neg hkk]
      simp only [valsFlat, List.map_cons, List.flatten_cons]
      rw [List.append_assoc]
      exact List.Perm.append_left cs ih

theorem valsFlat_foldl (l : List CarInfo) :
    ∀ (acc : List (String × List CarInfo)),
      (valsFlat (l.foldl (fun acc c => groupInsert acc c.make c) acc)).Perm
        (valsFlat acc ++ l) := by
  induction l with
  | nil => intro acc; simp
  | cons c cs ih =>
    intro acc
    rw [List.foldl_cons]
    refine (ih (groupInsert acc c.make c)).trans ?_
    have h1 := valsFlat_groupInsert acc c.make c
    refine (h1.append_right cs).trans ?_
    rw [List.append_assoc]
    exact List.Perm.refl _

theorem valsFlat_group_by_make (l : List CarInfo) :
    (valsFlat (group_by_make l)).Perm l := by
  have := valsFlat_foldl l []
  simpa [group_by_make, valsFlat] using this

/-! Lemmas about the driver loop. -/

theorem run_main_trace (ctx : Ctx) (dashcamList : List String) :
    ∀ (outs templates : List String),
      (run_main ctx dashcamList outs templates).1 =
        ((outs.zip templates).map
          (fun p => pairEvents ctx dashcamList p.1 p.2)).flatten := by
  intro outs
  induction outs with
  | nil => intro templates; cases templates <;> rfl
  | cons o os ih =>
    intro templates
    cases templates with
    | nil => rfl
    | cons t ts =>
      simp only [run_main, List.zip_cons_cons, List.map_cons, List.flatten_cons]
      rw [ih ts]

theorem run_main_flag (ctx : Ctx) (dashcamList : List String) :
    ∀ (outs templates : List String),
      (run_main ctx dashcamList outs templates).2 = true ↔
        outs.length = templates.length := by
  intro outs
  induction outs with
  | nil =>
    intro templates
    cases templates with
    | nil => simp [run_main]
    | cons t ts => simp [run_main]
  | cons o os ih =>
    intro templates
    cases templates with
    | nil => simp [run_main]
    | cons t ts =>
      simp only [run_main, List.length_cons]
      rw [ih ts]
      omega

/-- Unfolding equation for the per-model contribution of the collector. -/
theorem modelContribution_eq (ctx : Ctx) (fns : List (Footnote × Nat))
    (dashcam_only : Bool) (model : String) (entry : CarInfoEntry) :
    modelContribution ctx fns dashcam_only model entry =
      if ((ctx.getParams model docs_get_params_args).dashcamOnly != dashcam_only)
          || entry.isNone then []
      else entry.toList.map
        (initRecord ctx (ctx.getParams model docs_get_params_args) fns) := rfl

/-- Each key of the 1-based position map sits at the position its value
names: `(k, v)` in the map built after `n` earlier elements means
`n + 1 ≤ v` and the underlying list has `k` at offset `v - n - 1`. -/
theorem mem_idxMapFrom_get (l : List Footnote) :
    ∀ (n : Nat) (k : Footnote) (v : Nat), (k, v) ∈ idxMapFrom n l →
      n + 1 ≤ v ∧ l.get? (v - n - 1) = some k := by
  induction l with
  | nil => intro n k v h; simp [idxMapFrom] at h
  | cons fn fns ih =>
    intro n k v h
    rcases List.mem_cons.mp h with heq | hmem
    · simp only [Prod.mk.injEq] at heq
      obtain ⟨hk, hv⟩ := heq
      subst hk
      subst hv
      refine ⟨le_refl _, ?_⟩
      have hz : n + 1 - n - 1 = 0 := by omega
      rw [hz]
      rfl
    · obtain ⟨hb, hg⟩ := ih (n + 1) k v hmem
      refine ⟨by omega, ?_⟩
      have harith : v - n - 1 = (v - (n + 1) - 1) + 1 := by omega
      rw [harith]
      simpa using hg

/-! The claims. -/

/-- Claim C1: when the footnote enumeration values are globally unique,
`get_all_footnotes` assigns indices in declaration/registry order (its dict
is exactly the 1-based position map of `all_footnotes`), its values are
exactly `1, …, N` in order and its keys exactly the footnotes — a bijection
onto `{1, …, N}` — and every common footnote's index is strictly below
every brand footnote's index. -/
theorem claim1_footnote_index_bijection (common : List Footnote)
    (brands : List (List Footnote))
    (h : (all_footnotes common brands).Nodup) :
    get_all_footnotes common brands = idxMapFrom 0 (all_footnotes common brands)
    ∧ (get_all_footnotes common brands).map Prod.snd =
        List.range' 1 (all_footnotes common brands).length
    ∧ (get_all_footnotes common brands).map Prod.fst = all_footnotes common brands
    ∧ ∀ fn ∈ common, ∀ fn' ∈ brands.flatten, ∀ i j,
        dictGet (get_all_footnotes common brands) fn = some i →
        dictGet (get_all_footnotes common brands) fn' = some j → i < j := by
  have hmap := get_all_footnotes_eq_idxMap common brands h
  refine ⟨hmap, ?_, ?_, ?_⟩
  · rw [hmap]
    simpa using idxMapFrom_map_snd (all_footnotes common brands) 0
  · rw [hmap, idxMapFrom_map_fst]
  · intro fn hfn fn' hfn' i j hi hj
    rw [hmap] at hi hj
    have happ : idxMapFrom 0 (all_footnotes common brands) =
        idxMapFrom 0 common ++ idxMapFrom (0 + common.length) brands.flatten :=
      idxMapFrom_append common brands.flatten 0
    rw [happ] at hi hj
    rcases dictGet_idxMapFrom_of_mem common 0 fn hfn with ⟨v, hv⟩
    have hvi : v = i := by
      have hl := dictGet_append_left _
        (idxMapFrom (0 + common.length) brands.flatten) fn v hv
      exact Option.some.inj (hl.symm.trans hi)
    have hbound := dictGet_idxMapFrom_bounds common 0 fn v hv
    have h' : (common ++ brands.flatten).Nodup := h
    have hdisj := (List.nodup_append.mp h').2.2
    have hfn'c : fn' ∉ common := fun hmem => hdisj hmem hfn'
    have hkeys : fn' ∉ (idxMapFrom 0 common).map Prod.fst := by
      rw [idxMapFrom_map_fst]
      exact hfn'c
    rw [dictGet_append_right _ _ fn' hkeys] at hj
    have hbound' :=
      dictGet_idxMapFrom_bounds brands.flatten (0 + common.length) fn' j hj
    omega

/-- Witness for claim C1 at a concrete footnote family. -/
theorem claim1_witness :
    (get_all_footnotes exCommon exBrands).map Prod.snd =
      List.range' 1 (all_footnotes exCommon exBrands).length :=
  (claim1_footnote_index_bijection exCommon exBrands (by decide)).2.1

/-- Counterexample to claim C2 as stated: a model whose registry entry is
an empty list of records, with a matching dashcam flag, contributes no
records although neither stated skip condition (flag mismatch, or a `None`
entry) holds. -/
theorem claim2_counterexample :
    modelContribution exCtx3 [] false "m" (CarInfoEntry.many []) = []
    ∧ ¬(((exCtx3.getParams "m" docs_get_params_args).dashcamOnly ≠ false)
        ∨ (CarInfoEntry.many []).isNone = true) := by decide

/-- Claim C2 amended: a `(model, car_info)` pair contributes no records to
the flat list exactly when the model's dashcam flag differs from the
requested filter, or the registry returned no car-info (`None`), or the
registry returned an empty list of car-infos. -/
theorem claim2_skip_iff (ctx : Ctx) (fns : List (Footnote × Nat))
    (dashcam_only : Bool) (model : String) (entry : CarInfoEntry) :
    modelContribution ctx fns dashcam_only model entry = [] ↔
      ((ctx.getParams model docs_get_params_args).dashcamOnly ≠ dashcam_only
        ∨ entry.isNone = true ∨ entry.toList = []) := by
  rw [modelContribution_eq]
  by_cases hguard :
      (((ctx.getParams model docs_get_params_args).dashcamOnly != dashcam_only)
        || entry.isNone) = true
  · rw [if_pos hguard]
    constructor
    · intro _
      have hor : ((ctx.getParams model docs_get_params_args).dashcamOnly
            != dashcam_only) = true ∨ entry.isNone = true := by
        rw [← Bool.or_eq_true]
        exact hguard
      rcases hor with hbne | hnone
      · exact Or.inl (by simpa using hbne)
      · exact Or.inr (Or.inl hnone)
    · intro _
      rfl
  · rw [if_neg hguard]
    have h2 := hguard
    rw [Bool.or_eq_true] at h2
    push_neg at h2
    obtain ⟨ha, hb⟩ := h2
    have ha' : (ctx.getParams model docs_get_params_args).dashcamOnly =
        dashcam_only := by simpa using ha
    have hb' : entry.isNone = false := by
      cases hx : entry.isNone
      · rfl
      · exact absurd hx hb
    constructor
    · intro hmap
      exact Or.inr (Or.inr (by simpa using hmap))
    · intro hcon
      rcases hcon with hf | hn | ht
      · exact absurd ha' hf
      · rw [hn] at hb'
        exact absurd hb' (by simp)
      · rw [ht]
        rfl

/-- Claim C3: `get_all_car_info` returns its collected records sorted by
the natural order on case-lowered display names (pairwise no later element
is strictly below an earlier one), as a permutation of the collected list,
stably (records with any given sort key keep their pre-sort relative
order), and on the concrete names `"Model 10"`, `"Model 3"`, `"model 2"`
the output order is `"model 2"`, `"Model 3"`, `"Model 10"`. -/
theorem claim3_sorted_natural (ctx : Ctx) (dashcam_only : Bool) :
    (get_all_car_info ctx dashcam_only).Pairwise (fun a b => natCarLt b a = false)
    ∧ (get_all_car_info ctx dashcam_only).Perm (collect_car_info ctx dashcam_only)
    ∧ (∀ K : List Chunk,
        (get_all_car_info ctx dashcam_only).filter (fun c => natCarKey c == K) =
          (collect_car_info ctx dashcam_only).filter (fun c => natCarKey c == K))
    ∧ get_all_car_info exCtx3 false =
        [exRec "model 2" "X", exRec "Model 3" "X", exRec "Model 10" "X"] := by
  have hasym : ∀ a b : CarInfo, natCarLt a b = true → natCarLt b a = false :=
    fun a b hab => chunkListLt_asymm hab
  have hneg : ∀ a b c : CarInfo, natCarLt a b = false → natCarLt b c = false →
      natCarLt a c = false :=
    fun a b c h1 h2 => chunkListLt_neg_trans h1 h2
  refine ⟨stableSortBy_sorted natCarLt hasym hneg _,
    stableSortBy_perm natCarLt _, ?_, by decide⟩
  intro K
  refine stableSortBy_filter natCarLt _ _ ?_
  intro x y hx hlt
  have hkx : natCarKey x = K := by simpa using hx
  cases hy : (natCarKey y == K)
  · rfl
  · exfalso
    have hky : natCarKey y = K := by simpa using hy
    have h1 : chunkListLt (natCarKey y) (natCarKey x) = true := hlt
    rw [hky, hkx, chunkListLt_irrefl] at h1
    exact absurd h1 (by simp)

/-- Claim C4: `group_by_make` performs no sorting and buckets preserve the
input order — each manufacturer's bucket is exactly the subsequence of
input records with that make — and on the concrete input
`[A(make=X), B(make=Y), C(make=X)]` it yields `{X: [A, C], Y: [B]}`. -/
theorem claim4_group_by_make_order :
    (∀ (l : List CarInfo) (m : String),
        lookupMake (group_by_make l) m = l.filter (fun c => c.make == m))
    ∧ group_by_make [exRec "A" "X", exRec "B" "Y", exRec "C" "X"] =
        [("X", [exRec "A" "X", exRec "C" "X"]), ("Y", [exRec "B" "Y"])] :=
  ⟨lookupMake_group_by_make, by decide⟩

/-- Claim C5: the collector's record initialisation is lazy and idempotent:
a record that already has the `row` display field passes through unchanged,
a record lacking it gets `init_make` then `init` applied in that order, and
whenever the external `init` always produces the `row` field (as the real
one does), re-running the collector step on its own output is the
identity. -/
theorem claim5_lazy_idempotent_init (ctx : Ctx) (CP : CarParams)
    (fns : List (Footnote × Nat)) (c : CarInfo) :
    (c.row.isSome = true → initRecord ctx CP fns c = c)
    ∧ (c.row.isSome = false →
        initRecord ctx CP fns c = ctx.initFull CP fns (ctx.initMake CP c))
    ∧ ((∀ cp f r, ((ctx.initFull cp f r).row).isSome = true) →
        initRecord ctx CP fns (initRecord ctx CP fns c) = initRecord ctx CP fns c) := by
  refine ⟨?_, ?_, ?_⟩
  · intro h
    rw [initRecord, if_pos h]
  · intro h
    rw [initRecord, if_neg (by simp [h])]
  · intro hinit
    by_cases h : c.row.isSome = true
    · have hc : initRecord ctx CP fns c = c := by rw [initRecord, if_pos h]
      rw [hc]
      exact hc
    · have h' : c.row.isSome = false := by
        cases hx : c.row.isSome
        · rfl
        · exact absurd hx h
      have hc : initRecord ctx CP fns c =
          ctx.initFull CP fns (ctx.initMake CP c) := by
        rw [initRecord, if_neg (by simp [h'])]
      rw [hc, initRecord, if_pos (hinit CP fns (ctx.initMake CP c))]

/-- Witness for claim C5: with an `init` that sets the `row` field, the
collector step is idempotent on a concrete uninitialised record. -/
theorem claim5_witness :
    initRecord exInitCtx { dashcamOnly := false } []
        (initRecord exInitCtx { dashcamOnly := false } []
          { name := "A", make := "X", row := Option.none }) =
      initRecord exInitCtx { dashcamOnly := false } []
        { name := "A", make := "X", row := Option.none } :=
  (claim5_lazy_idempotent_init exInitCtx { dashcamOnly := false } []
      { name := "A", make := "X", row := Option.none }).2.2
    (fun _ _ _ => rfl)

/-- Counterexample to claim C6 as stated: with one output path and two
template paths the lengths differ, yet the run's event trace is not free of
file reads and writes — the first pair is fully processed (template read,
output written) before the strict zip raises. -/
theorem claim6_counterexample :
    (["o1"] : List String).length ≠ (["t1", "t2"] : List String).length
    ∧ ((run_main exCtx3 [] ["o1"] ["t1", "t2"]).2 = false)
    ∧ ((run_main exCtx3 [] ["o1"] ["t1", "t2"]).1.any
        (fun e => match e with
          | Event.readTemplate _ => true
          | Event.writeOut _ _ => true
          | _ => false)) = true := by decide

/-- Claim C6 amended: with template and output lists of unequal lengths
the run fails (and it succeeds exactly when the lengths agree), but the
failure comes from the strict zip only after the common prefix of pairs is
fully processed: the trace is exactly the concatenated per-pair events of
the zipped prefix — so file I/O does occur for those pairs, and none occurs
only when either list is empty. -/
theorem claim6_strict_zip_bounded (ctx : Ctx)
    (dashcamList outs templates : List String) :
    ((run_main ctx dashcamList outs templates).2 = true ↔
        outs.length = templates.length)
    ∧ (run_main ctx dashcamList outs templates).1 =
        ((outs.zip templates).map
          (fun p => pairEvents ctx dashcamList p.1 p.2)).flatten :=
  ⟨run_main_flag ctx dashcamList outs templates,
    run_main_trace ctx dashcamList outs templates⟩

/-- Claim C7: the footnote text list handed to the template is ordered by
the index mapping — when the enumeration values are globally unique, a
footnote mapped to index `i` has its display text at position `i - 1` of
the list. -/
theorem claim7_footnote_text_order (common : List Footnote)
    (brands : List (List Footnote)) (h : (all_footnotes common brands).Nodup)
    (fn : Footnote) (i : Nat)
    (hmem : (fn, i) ∈ get_all_footnotes common brands) :
    (footnote_texts common brands).get? (i - 1) = some fn.text := by
  have hmap := get_all_footnotes_eq_idxMap common brands h
  rw [hmap] at hmem
  obtain ⟨hge, hget⟩ := mem_idxMapFrom_get (all_footnotes common brands) 0 fn i hmem
  have htexts : footnote_texts common brands =
      (all_footnotes common brands).map Footnote.text := by
    rw [footnote_texts, hmap]
    rw [show (fun p : Footnote × Nat => p.1.text) =
        (Footnote.text ∘ Prod.fst) from rfl]
    rw [← List.map_map, idxMapFrom_map_fst]
  rw [htexts, List.get?_map]
  have hz : i - 0 - 1 = i - 1 := by omega
  rw [hz] at hget
  rw [hget]
  rfl

/-- Witness for claim C7 at a concrete footnote family. -/
theorem claim7_witness :
    (footnote_texts exCommon exBrands).get? (2 - 1) = some "b" :=
  claim7_footnote_text_order exCommon exBrands (by decide)
    { id := 2, text := "b" } 2 (by decide)

/-- Claim C8: the `get_params` call the collector makes for a model uses an
empty fingerprint, a single firmware entry with the placeholder ecu
`"unknown"`, the experimental longitudinal flag forced on and the docs flag
set — the same constant argument structure whatever the requested
`dashcam_only` filter. -/
theorem claim8_get_params_arguments (ctx : Ctx) (fns : List (Footnote × Nat))
    (dashcam_only : Bool) (model : String) (entry : CarInfoEntry) :
    docs_get_params_args =
      { fingerprint := [], car_fw := [{ ecu := "unknown" }],
        experimental_long := true, docs := true }
    ∧ modelContribution ctx fns dashcam_only model entry =
        (if ((ctx.getParams model docs_get_params_args).dashcamOnly != dashcam_only)
            || entry.isNone then []
          else entry.toList.map
            (initRecord ctx (ctx.getParams model docs_get_params_args) fns)) :=
  ⟨rfl, rfl⟩

/-- Claim C9: the driver processes exactly the zipped (output, template)
pairs — its trace is the concatenation of per-pair event blocks — and each
pair's block gathers car info in dashcam-only mode precisely when the
template path is an entry of the dashcam-only list, writing the rendered
output and then printing the confirmation line naming the output path. -/
theorem claim9_driver_pairs (ctx : Ctx)
    (dashcamList outs templates : List String) :
    (run_main ctx dashcamList outs templates).1 =
      ((outs.zip templates).map
        (fun p => pairEvents ctx dashcamList p.1 p.2)).flatten
    ∧ ∀ out template,
        pairEvents ctx dashcamList out template =
          [Event.openOut out, Event.readTemplate template,
            Event.writeOut out
              (generate_cars_md ctx
                (get_all_car_info ctx (dashcamList.contains template)) template),
            Event.printed ("Generated and written to " ++ out)]
        ∧ (dashcamList.contains template = true ↔ template ∈ dashcamList) :=
  ⟨run_main_trace ctx dashcamList outs templates,
    fun _ _ => ⟨rfl, List.elem_iff⟩⟩

/-- Claim C10: `group_by_make` partitions its input: each bucket holds
exactly the input records of its make in input order, the keys are the
makes occurring in the input in order of first occurrence (and only
those), and the buckets together are a permutation of the input. -/
theorem claim10_group_partition (l : List CarInfo) :
    (∀ m, lookupMake (group_by_make l) m = l.filter (fun c => c.make == m))
    ∧ (group_by_make l).map Prod.fst = dedupFirst (l.map (fun c => c.make))
    ∧ (∀ m, m ∈ (group_by_make l).map Prod.fst ↔ m ∈ l.map (fun c => c.make))
    ∧ (valsFlat (group_by_make l)).Perm l := by
  refine ⟨fun m => lookupMake_group_by_make l m, keys_group_by_make l, ?_,
    valsFlat_group_by_make l⟩
  intro m
  rw [keys_group_by_make]
  exact mem_dedupFirst _ m

end CarDocs
